import Mathlib

/-!
Verification of the execution core of the `cgt` computation-graph runtime
(`include/execution.h`): memory locations, instruction taxonomy, callables,
the execution graph, the native profiler, and the equivalence of the
parallel interpreter with the sequential one.

The embedding is shallow: opaque tensor/tuple objects are a type parameter
`V`, the opaque `void* data` pointer bound into callables is a type
parameter `D` (a C `NULL` pointer is `Option.none`), C `double` is modelled
by exact rationals `ℚ`, and the C++ `Instruction*` pointer identity used as
the profiler's map key is modelled by a `Nat` address.
-/

namespace cgt

/-- Device tags, from `cgtDevtype` with values `cgtCPU`, `cgtGPU`. -/
inductive cgtDevtype where
  | cgtCPU
  | cgtGPU
deriving DecidableEq, Repr

/-- `MemLocation`: a pair of slot index and device tag (`execution.h`). -/
structure MemLocation where
  index : Nat
  devtype : cgtDevtype
deriving DecidableEq, Repr

/-- `ByRefCallable`: a C function pointer `cgtByRefFun` plus an opaque
`data` pointer.  A null function pointer is `none`; the function receives
`(data, reads, write)` and mutates the write object in place, which the
pure model renders as returning the new value of the write object. -/
structure ByRefCallable (D V : Type) where
  fptr : Option (Option D → List V → V → V)
  data : Option D

/-- `ByRefCallable()` default constructor: `fptr(NULL), data(NULL)`. -/
def ByRefCallable.mkDefault (D V : Type) : ByRefCallable D V :=
  ByRefCallable.mk none none

/-- `ByRefCallable::operator()(reads, write)`: evaluates
`(*fptr)(data, reads, write)` with no null check; dereferencing a null
`fptr` is the fatal error outcome, modelled as `none`. -/
def ByRefCallable.call (c : ByRefCallable D V) (reads : List V) (write : V) : Option V :=
  match c.fptr with
  | none => none
  | some f => some (f c.data reads write)

/-- `ByValCallable`: a C function pointer `cgtByValFun` plus an opaque
`data` pointer; the function receives `(data, args)` and returns a fresh
object. -/
structure ByValCallable (D V : Type) where
  fptr : Option (Option D → List V → V)
  data : Option D

/-- `ByValCallable()` default constructor: `fptr(NULL), data(NULL)`. -/
def ByValCallable.mkDefault (D V : Type) : ByValCallable D V :=
  ByValCallable.mk none none

/-- `ByValCallable::operator()(args)`: returns `(*fptr)(data, args)` with
no null check; dereferencing a null `fptr` is the fatal error outcome,
modelled as `none`. -/
def ByValCallable.call (c : ByValCallable D V) (args : List V) : Option V :=
  match c.fptr with
  | none => none
  | some f => some (f c.data args)

/-- The five instruction variants of `execution.h`.  Each constructor
carries the fields of the corresponding C++ class in declaration order:
`repr`, `pyinstr_hash`, then the per-kind payload.  The `quick` flag of
`LoadArgument`, `Alloc` and `BuildTup` is hard-coded `true` by their
constructors, so it is not a field of those variants. -/
inductive Instr (D V : Type) where
  | loadArgument (repr : String) (pyinstr_hash : Int) (ind : Nat) (writeloc : MemLocation)
  | alloc (repr : String) (pyinstr_hash : Int) (dtype : Nat) (readlocs : List MemLocation)
      (writeloc : MemLocation)
  | buildTup (repr : String) (pyinstr_hash : Int) (readlocs : List MemLocation)
      (writeloc : MemLocation)
  | returnByRef (repr : String) (pyinstr_hash : Int) (readlocs : List MemLocation)
      (writeloc : MemLocation) (callable : ByRefCallable D V) (quick : Bool)
  | returnByVal (repr : String) (pyinstr_hash : Int) (readlocs : List MemLocation)
      (writeloc : MemLocation) (callable : ByValCallable D V) (quick : Bool)

instance : Inhabited (Instr D V) :=
  ⟨Instr.loadArgument "" 0 0 (MemLocation.mk 0 cgtDevtype.cgtCPU)⟩

/-- `Instruction::quick()`: `true` for the three variants whose
constructors pass `quick=true` to the base class, the constructor-supplied
flag for `ReturnByRef` and `ReturnByVal`. -/
def Instr.quick : Instr D V → Bool
  | .loadArgument _ _ _ _ => true
  | .alloc _ _ _ _ _ => true
  | .buildTup _ _ _ _ => true
  | .returnByRef _ _ _ _ _ q => q
  | .returnByVal _ _ _ _ _ q => q

/-- `Instruction::get_readlocs()`: the read-slot list supplied at
construction; `LoadArgument` keeps a default-initialised (empty) vector. -/
def Instr.get_readlocs : Instr D V → List MemLocation
  | .loadArgument _ _ _ _ => []
  | .alloc _ _ _ rs _ => rs
  | .buildTup _ _ rs _ => rs
  | .returnByRef _ _ rs _ _ _ => rs
  | .returnByVal _ _ rs _ _ _ => rs

/-- `Instruction::get_writeloc()`: the write-slot supplied at
construction. -/
def Instr.get_writeloc : Instr D V → MemLocation
  | .loadArgument _ _ _ w => w
  | .alloc _ _ _ _ w => w
  | .buildTup _ _ _ w => w
  | .returnByRef _ _ _ w _ _ => w
  | .returnByVal _ _ _ w _ _ => w

/-- `ExecutionGraph`: an owned instruction sequence plus slot counts. -/
structure ExecutionGraph (D V : Type) where
  instrs_ : List (Instr D V)
  n_args_ : Nat
  n_locs_ : Nat

/-- `ExecutionGraph::instrs()`. -/
def ExecutionGraph.instrs (g : ExecutionGraph D V) : List (Instr D V) := g.instrs_

/-- `ExecutionGraph::n_args()`. -/
def ExecutionGraph.n_args (g : ExecutionGraph D V) : Nat := g.n_args_

/-- `ExecutionGraph::n_locs()`. -/
def ExecutionGraph.n_locs (g : ExecutionGraph D V) : Nat := g.n_locs_

/-- `ExecutionGraph::n_instrs()`: `instrs_.size()`. -/
def ExecutionGraph.n_instrs (g : ExecutionGraph D V) : Nat := g.instrs_.length

/-- `InstructionStats`: one profiler record. `double` is modelled by `ℚ`. -/
structure InstructionStats where
  instr_repr : String
  pyinstr_hash : Int
  count : Int
  time_total : ℚ
deriving DecidableEq, Repr

/-- The identity of a C++ `Instruction*` as the profiler sees it: the
pointer value (map key) together with the `repr()` and `pyinstr_hash()`
the pointed-to instruction reports. -/
structure InstrPtr where
  addr : Nat
  repr : String
  pyinstr_hash : Int
deriving DecidableEq, Repr

/-- `NativeProfiler` state: the `on` flag, running total `t_total`, and
the `map<Instruction*, InstructionStats*> instr2stats`, modelled as an
association list keyed by pointer address. -/
structure NativeProfiler where
  on_ : Bool
  t_total : ℚ
  instr2stats : List (Nat × InstructionStats)

/-- Lookup in the `instr2stats` map: `instr2stats.count(instr) == 0`
corresponds to a `none` result. -/
def lookupStats (k : Nat) : List (Nat × InstructionStats) → Option InstructionStats
  | [] => none
  | (k0, s) :: rest => if k = k0 then some s else lookupStats k rest

/-- Replace the record stored under key `k` (the effect of mutating
`instr2stats[instr]` through the stored pointer). -/
def updateStats (k : Nat) (s' : InstructionStats) :
    List (Nat × InstructionStats) → List (Nat × InstructionStats)
  | [] => []
  | (k0, s) :: rest =>
    if k = k0 then (k0, s') :: rest else (k0, s) :: updateStats k s' rest

/-- `NativeProfiler::update(instr, elapsed)`: if no record exists, insert
`new InstructionStats(instr->repr(), instr->pyinstr_hash(), 1, elapsed)`;
otherwise increment `count` and add `elapsed` to `time_total`; in both
cases add `elapsed` to `t_total`. -/
def NativeProfiler.update (p : NativeProfiler) (instr : InstrPtr) (elapsed : ℚ) :
    NativeProfiler :=
  match lookupStats instr.addr p.instr2stats with
  | none =>
    NativeProfiler.mk p.on_ (p.t_total + elapsed)
      (p.instr2stats ++ [(instr.addr,
        InstructionStats.mk instr.repr instr.pyinstr_hash 1 elapsed)])
  | some s =>
    NativeProfiler.mk p.on_ (p.t_total + elapsed)
      (updateStats instr.addr
        (InstructionStats.mk s.instr_repr s.pyinstr_hash (s.count + 1)
          (s.time_total + elapsed)) p.instr2stats)

/-- `NativeProfiler::clear_stats()`: clear the map, reset `t_total`. -/
def NativeProfiler.clear_stats (p : NativeProfiler) : NativeProfiler :=
  NativeProfiler.mk p.on_ 0 []

/-- `NativeProfiler::start()`. -/
def NativeProfiler.start (p : NativeProfiler) : NativeProfiler :=
  NativeProfiler.mk true p.t_total p.instr2stats

/-- `NativeProfiler::stop()`. -/
def NativeProfiler.stop (p : NativeProfiler) : NativeProfiler :=
  NativeProfiler.mk false p.t_total p.instr2stats

/-- `NativeProfiler::is_on()`. -/
def NativeProfiler.is_on (p : NativeProfiler) : Bool := p.on_

/-- `NativeProfiler::get_t_total()`. -/
def NativeProfiler.get_t_total (p : NativeProfiler) : ℚ := p.t_total

/-- `NativeProfiler::get_instr_stats()`: snapshot the map values into a
sequence, in map order. -/
def NativeProfiler.get_instr_stats (p : NativeProfiler) : List InstructionStats :=
  p.instr2stats.map Prod.snd

/-- Sum of `time_total` over all records of the `instr2stats` map. -/
def sumTimeTotals (l : List (Nat × InstructionStats)) : ℚ :=
  (l.map (fun kv => kv.2.time_total)).sum

/-- An operation on the profiler, for stating sequence-closed invariants:
either an `update(instr, elapsed)` or a `clear_stats()`. -/
inductive ProfOp where
  | update (instr : InstrPtr) (elapsed : ℚ)
  | clear

/-- Apply one profiler operation. -/
def applyOp (p : NativeProfiler) : ProfOp → NativeProfiler
  | .update i e => p.update i e
  | .clear => p.clear_stats

/-- Apply a sequence of profiler operations, left to right. -/
def applyOps (p : NativeProfiler) : List ProfOp → NativeProfiler
  | [] => p
  | op :: rest => applyOps (applyOp p op) rest

end cgt

namespace cgt

theorem lookupStats_append_singleton (k k0 : Nat) (x : InstructionStats)
    (l : List (Nat × InstructionStats)) (hk : k ≠ k0) :
    lookupStats k (l ++ [(k0, x)]) = lookupStats k l := by
  induction l with
  | nil => simp [lookupStats, hk]
  | cons kv rest ih =>
    obtain ⟨k1, s1⟩ := kv
    by_cases h : k = k1 <;> simp [lookupStats, h, ih]

theorem lookupStats_append_singleton_self (k : Nat) (x : InstructionStats)
    (l : List (Nat × InstructionStats)) (hk : lookupStats k l = none) :
    lookupStats k (l ++ [(k, x)]) = some x := by
  induction l with
  | nil => simp [lookupStats]
  | cons kv rest ih =>
    obtain ⟨k1, s1⟩ := kv
    by_cases h : k = k1
    · simp [lookupStats, h] at hk
    · simp [lookupStats, h] at hk ⊢
      exact ih hk

theorem lookupStats_updateStats_self (k : Nat) (s' : InstructionStats)
    (l : List (Nat × InstructionStats)) (s : InstructionStats)
    (hk : lookupStats k l = some s) :
    lookupStats k (updateStats k s' l) = some s' := by
  induction l with
  | nil => simp [lookupStats] at hk
  | cons kv rest ih =>
    obtain ⟨k1, s1⟩ := kv
    by_cases h : k = k1
    · simp [lookupStats, updateStats, h]
    · simp [lookupStats, updateStats, h] at hk ⊢
      exact ih hk

theorem lookupStats_updateStats_ne (k k0 : Nat) (s' : InstructionStats)
    (l : List (Nat × InstructionStats)) (hk : k ≠ k0) :
    lookupStats k (updateStats k0 s' l) = lookupStats k l := by
  induction l with
  | nil => simp [updateStats]
  | cons kv rest ih =>
    obtain ⟨k1, s1⟩ := kv
    by_cases h : k0 = k1
    · subst h
      simp [lookupStats, updateStats, hk]
    · by_cases h2 : k = k1 <;> simp [lookupStats, updateStats, h, h2, ih]

/-- C2: `NativeProfiler::update(instr, elapsed)` adds `elapsed` to
`t_total`; when a record for `instr` already exists it increments that
record's `count` by one and adds `elapsed` to its `time_total`, otherwise
it inserts a fresh record carrying the instruction's `repr` and
`pyinstr_hash` with `count = 1` and `time_total = elapsed`; every record
stored under any other key is unchanged. -/
theorem NativeProfiler.update_spec (p : NativeProfiler) (instr : InstrPtr) (elapsed : ℚ) :
    (p.update instr elapsed).t_total = p.t_total + elapsed ∧
    (match lookupStats instr.addr p.instr2stats with
     | none =>
       lookupStats instr.addr (p.update instr elapsed).instr2stats =
         some (InstructionStats.mk instr.repr instr.pyinstr_hash 1 elapsed)
     | some s =>
       lookupStats instr.addr (p.update instr elapsed).instr2stats =
         some (InstructionStats.mk s.instr_repr s.pyinstr_hash (s.count + 1)
           (s.time_total + elapsed))) ∧
    (∀ k, k ≠ instr.addr →
      lookupStats k (p.update instr elapsed).instr2stats =
        lookupStats k p.instr2stats) := by
  rcases hl : lookupStats instr.addr p.instr2stats with _ | s
  · refine ⟨by simp [NativeProfiler.update, hl], ?_, ?_⟩
    · simp only [NativeProfiler.update, hl]
      exact lookupStats_append_singleton_self _ _ _ hl
    · intro k hk
      simp only [NativeProfiler.update, hl]
      exact lookupStats_append_singleton _ _ _ _ hk
  · refine ⟨by simp [NativeProfiler.update, hl], ?_, ?_⟩
    · simp only [NativeProfiler.update, hl]
      exact lookupStats_updateStats_self _ _ _ _ hl
    · intro k hk
      simp only [NativeProfiler.update, hl]
      exact lookupStats_updateStats_ne _ _ _ _ hk

theorem sumTimeTotals_append_singleton (l : List (Nat × InstructionStats))
    (k : Nat) (x : InstructionStats) :
    sumTimeTotals (l ++ [(k, x)]) = sumTimeTotals l + x.time_total := by
  simp [sumTimeTotals]

theorem sumTimeTotals_updateStats (k : Nat) (s s' : InstructionStats)
    (l : List (Nat × InstructionStats)) (hk : lookupStats k l = some s) :
    sumTimeTotals (updateStats k s' l) + s.time_total =
      sumTimeTotals l + s'.time_total := by
  induction l with
  | nil => simp [lookupStats] at hk
  | cons kv rest ih =>
    obtain ⟨k1, s1⟩ := kv
    by_cases h : k = k1
    · simp only [lookupStats, if_pos h] at hk
      cases hk
      simp [updateStats, if_pos h, sumTimeTotals]
      ring
    · simp only [lookupStats, if_neg h] at hk
      simp only [updateStats, if_neg h, sumTimeTotals, List.map_cons, List.sum_cons]
      have := ih hk
      simp only [sumTimeTotals] at this
      linarith

/-- The profiler-additivity invariant: the running total equals the sum
of the per-record subtotals. -/
def ProfInv (p : NativeProfiler) : Prop :=
  p.t_total = sumTimeTotals p.instr2stats

theorem ProfInv_clear (p : NativeProfiler) : ProfInv p.clear_stats := by
  simp [ProfInv, NativeProfiler.clear_stats, sumTimeTotals]

theorem ProfInv_update (p : NativeProfiler) (i : InstrPtr) (e : ℚ)
    (h : ProfInv p) : ProfInv (p.update i e) := by
  unfold ProfInv at h ⊢
  rcases hl : lookupStats i.addr p.instr2stats with _ | s
  · simp only [NativeProfiler.update, hl]
    rw [sumTimeTotals_append_singleton, ← h]
  · simp only [NativeProfiler.update, hl]
    have hs := sumTimeTotals_updateStats i.addr s
      (InstructionStats.mk s.instr_repr s.pyinstr_hash (s.count + 1) (s.time_total + e))
      p.instr2stats hl
    simp only at hs
    linarith

theorem ProfInv_applyOps (p : NativeProfiler) (ops : List ProfOp)
    (h : ProfInv p) : ProfInv (applyOps p ops) := by
  induction ops generalizing p with
  | nil => exact h
  | cons op rest ih =>
    cases op with
    | update i e => exact ih _ (ProfInv_update _ _ _ h)
    | clear => exact ih _ (ProfInv_clear _)

/-- C3: starting from a cleared profiler state, `t_total` equals the sum
over all stats records of `time_total`, and the invariant is preserved by
every sequence of `update` and `clear_stats` operations. -/
theorem profiler_additivity (p : NativeProfiler) (ops : List ProfOp) :
    ProfInv (applyOps p.clear_stats ops) :=
  ProfInv_applyOps _ _ (ProfInv_clear p)

/-- C5: after `clear_stats`, `get_t_total` returns `0` and
`get_instr_stats` returns the empty sequence, whatever the prior state. -/
theorem clear_stats_spec (p : NativeProfiler) :
    p.clear_stats.get_t_total = 0 ∧ p.clear_stats.get_instr_stats = [] := by
  exact ⟨rfl, rfl⟩

/-- C9: `update` never consults the `on` flag: run with the flag off
(`is_on` returns `false`), it produces exactly the state it produces with
the flag on, apart from the flag itself, which it leaves untouched. -/
theorem update_ignores_on_flag (t : ℚ) (st : List (Nat × InstructionStats))
    (i : InstrPtr) (e : ℚ) :
    (NativeProfiler.mk false t st).is_on = false ∧
    ((NativeProfiler.mk false t st).update i e).t_total =
      ((NativeProfiler.mk true t st).update i e).t_total ∧
    ((NativeProfiler.mk false t st).update i e).instr2stats =
      ((NativeProfiler.mk true t st).update i e).instr2stats ∧
    ((NativeProfiler.mk false t st).update i e).on_ = false := by
  refine ⟨rfl, ?_, ?_, ?_⟩ <;>
    rcases hl : lookupStats i.addr st with _ | s <;>
      simp [NativeProfiler.update, hl]

/-- C6: an `ExecutionGraph` built from `(instrs, n_args, n_locs)` reports
exactly those values through `instrs()`, `n_args()`, `n_locs()`, and
reports `n_instrs()` as the length of the instruction sequence; the class
has no mutating member, so these values never change after construction. -/
theorem ExecutionGraph_accessors (instrs : List (Instr D V)) (n_args n_locs : Nat) :
    (ExecutionGraph.mk instrs n_args n_locs).instrs = instrs ∧
    (ExecutionGraph.mk instrs n_args n_locs).n_args = n_args ∧
    (ExecutionGraph.mk instrs n_args n_locs).n_locs = n_locs ∧
    (ExecutionGraph.mk instrs n_args n_locs).n_instrs = instrs.length := by
  exact ⟨rfl, rfl, rfl, rfl⟩

/-- C4: `quick()` is `true` for every `LoadArgument`, `Alloc` and
`BuildTup` regardless of construction arguments, and equals the
constructor-supplied flag for `ReturnByRef` and `ReturnByVal`. -/
theorem quick_flags (r : String) (h : Int) (ind dtype : Nat)
    (rs : List MemLocation) (w : MemLocation) (cr : ByRefCallable D V)
    (cv : ByValCallable D V) (q : Bool) :
    (Instr.loadArgument r h ind w : Instr D V).quick = true ∧
    (Instr.alloc r h dtype rs w : Instr D V).quick = true ∧
    (Instr.buildTup r h rs w : Instr D V).quick = true ∧
    (Instr.returnByRef r h rs w cr q).quick = q ∧
    (Instr.returnByVal r h rs w cv q).quick = q := by
  exact ⟨rfl, rfl, rfl, rfl, rfl⟩

/-- C7: every instruction variant exposes through `get_writeloc` exactly
the `MemLocation` supplied at construction and through `get_readlocs`
exactly the read-slot list supplied at construction; `LoadArgument`
exposes the empty read-slot list. -/
theorem readlocs_writeloc_spec (r : String) (h : Int) (ind dtype : Nat)
    (rs : List MemLocation) (w : MemLocation) (cr : ByRefCallable D V)
    (cv : ByValCallable D V) (q : Bool) :
    (Instr.loadArgument r h ind w : Instr D V).get_readlocs = [] ∧
    (Instr.loadArgument r h ind w : Instr D V).get_writeloc = w ∧
    (Instr.alloc r h dtype rs w : Instr D V).get_readlocs = rs ∧
    (Instr.alloc r h dtype rs w : Instr D V).get_writeloc = w ∧
    (Instr.buildTup r h rs w : Instr D V).get_readlocs = rs ∧
    (Instr.buildTup r h rs w : Instr D V).get_writeloc = w ∧
    (Instr.returnByRef r h rs w cr q).get_readlocs = rs ∧
    (Instr.returnByRef r h rs w cr q).get_writeloc = w ∧
    (Instr.returnByVal r h rs w cv q).get_readlocs = rs ∧
    (Instr.returnByVal r h rs w cv q).get_writeloc = w := by
  exact ⟨rfl, rfl, rfl, rfl, rfl, rfl, rfl, rfl, rfl, rfl⟩

/-- C8: invoking a `ByRefCallable` on `(reads, write)` evaluates exactly
`fptr(data, reads, write)` and produces no separate return value beyond
the in-place mutation of `write`; invoking a `ByValCallable` on `reads`
returns exactly the object `fptr(data, reads)` produces, where `data` is
the pointer bound at construction. -/
theorem callable_invocation {D V : Type} (f : Option D → List V → V → V)
    (g : Option D → List V → V) (d : Option D) (reads : List V) (write : V) :
    (ByRefCallable.mk (some f) d).call reads write = some (f d reads write) ∧
    (ByValCallable.mk (some g) d).call reads = some (g d reads) := by
  exact ⟨rfl, rfl⟩

/-- C10: the default constructors set `fptr = NULL` and `data = NULL`,
and `operator()` dereferences `fptr` without a null check, so invoking a
default-constructed callable hits the null-function-pointer failure for
every argument. -/
theorem default_callable_null {D V : Type} :
    (ByRefCallable.mkDefault D V).fptr = none ∧
    (ByRefCallable.mkDefault D V).data = none ∧
    (ByValCallable.mkDefault D V).fptr = none ∧
    (ByValCallable.mkDefault D V).data = none ∧
    (∀ (reads : List V) (write : V),
      (ByRefCallable.mkDefault D V).call reads write = none) ∧
    (∀ (reads : List V), (ByValCallable.mkDefault D V).call reads = none) := by
  exact ⟨rfl, rfl, rfl, rfl, fun _ _ => rfl, fun _ => rfl⟩

end cgt

namespace cgt

/-- Modelled from the spec: the interpreter's slot storage (the
implementation file holding the interpreters is not part of the header).
"An array of `n_locs` object handles, all initially null", read and
mutated only through `get`/`set`; a cell is named by its slot index. -/
abbrev State (V : Type) := Nat → Option V

/-- Modelled from the spec: `interpreter.set(location, object)` — store an
object handle into the cell named by the location's index. -/
def setLoc (σ : State V) (l : Nat) (v : V) : State V :=
  fun k => if k = l then some v else σ k

/-- Modelled from the spec: the object/device API the core consumes
(`alloc_tensor`, `build_tuple`, `scalar_as_size`); the object system is an
external collaborator, so it is a parameter of the semantics. -/
structure ObjectModel (V : Type) where
  scalarAsSize : V → Option Nat
  allocTensor : Nat → List Nat → cgtDevtype → V
  buildTuple : List V → V

/-- Read the current objects at a list of slots; a null cell is the fatal
`UninitializedRead` outcome, modelled as `none`. -/
def readVals (σ : State V) : List MemLocation → Option (List V)
  | [] => some []
  | l :: ls =>
    match σ l.index, readVals σ ls with
    | some v, some vs => some (v :: vs)
    | _, _ => none

/-- Interpret a list of objects as scalar-integer shape components; a
non-scalar component is the fatal `TypeMismatch` outcome. -/
def sizesOf (M : ObjectModel V) : List V → Option (List Nat)
  | [] => some []
  | v :: vs =>
    match M.scalarAsSize v, sizesOf M vs with
    | some n, some ns => some (n :: ns)
    | _, _ => none

/-- Modelled from the spec: the value each instruction's `fire` stores at
its write-slot (the `fire` bodies live in the missing implementation
file).  `LoadArgument` fetches `getarg(ind)`; `Alloc` reads its read-slots
as shape components and allocates on the write-slot's device; `BuildTup`
tuples the read objects; `ReturnByRef` hands the read objects and the
current write-slot object to its callable, which mutates it in place;
`ReturnByVal` hands the read objects to its callable and stores the
produced object. -/
def fireVal (M : ObjectModel V) (args : List V) (σ : State V) : Instr D V → Option V
  | .loadArgument _ _ ind _ => args.get? ind
  | .alloc _ _ dtype rs w =>
    match readVals σ rs with
    | none => none
    | some vs =>
      match sizesOf M vs with
      | none => none
      | some shape => some (M.allocTensor dtype shape w.devtype)
  | .buildTup _ _ rs _ =>
    match readVals σ rs with
    | none => none
    | some vs => some (M.buildTuple vs)
  | .returnByRef _ _ rs w c _ =>
    match readVals σ rs, σ w.index with
    | some vs, some cur => c.call vs cur
    | _, _ => none
  | .returnByVal _ _ rs _ c _ =>
    match readVals σ rs with
    | some vs => c.call vs
    | none => none

/-- Modelled from the spec: `instr.fire(interpreter)` — compute the fired
value and store it at the instruction's write-slot; any failing
sub-operation is fatal to the run. -/
def fire (M : ObjectModel V) (args : List V) (σ : State V) (a : Instr D V) :
    Option (State V) :=
  (fireVal M args σ a).map (setLoc σ a.get_writeloc.index)

/-- Modelled from the spec: the sequential interpreter's instruction loop
— fire each instruction of the list in order. -/
def seqRun (M : ObjectModel V) (args : List V) (σ : State V) :
    List (Instr D V) → Option (State V)
  | [] => some σ
  | a :: rest =>
    match fire M args σ a with
    | none => none
    | some σ1 => seqRun M args σ1 rest

/-- The slot indices an instruction reads. -/
def readIdxs (a : Instr D V) : List Nat :=
  a.get_readlocs.map MemLocation.index

/-- Modelled from the spec: the cell-level conflict relation underlying
the parallel interpreter's dependency DAG — `j` depends on an earlier `i`
iff `i.writeloc ∈ j.readlocs` (flow), `j.writeloc == i.writeloc`
(output), or `j.writeloc ∈ i.readlocs` (anti). -/
def Conflict (a b : Instr D V) : Prop :=
  a.get_writeloc.index ∈ readIdxs b ∨
  b.get_writeloc.index = a.get_writeloc.index ∨
  b.get_writeloc.index ∈ readIdxs a

instance (a b : Instr D V) : Decidable (Conflict a b) := by
  unfold Conflict
  exact inferInstance

theorem Conflict_symm (a b : Instr D V) (h : Conflict a b) : Conflict b a := by
  rcases h with h | h | h
  · exact Or.inr (Or.inr h)
  · exact Or.inr (Or.inl h.symm)
  · exact Or.inl h

/-- Modelled from the spec: `ord` is a valid topological order of the
dependency DAG of `prog` — whenever the earlier instruction `i` conflicts
with the later instruction `j`, `i` is scheduled before `j`. -/
def linearExtOK (prog : List (Instr D V)) (ord : List Nat) : Prop :=
  ∀ j, j < prog.length → ∀ i, i < j →
    Conflict (prog.getD i default) (prog.getD j default) →
    ord.indexOf i < ord.indexOf j

instance (prog : List (Instr D V)) (ord : List Nat) :
    Decidable (linearExtOK prog ord) := by
  unfold linearExtOK
  exact inferInstance

/-- Modelled from the spec: the instruction sequence the parallel
interpreter actually fires, listed in completion order `ord`. -/
def parOrder (prog : List (Instr D V)) (ord : List Nat) : List (Instr D V) :=
  ord.filterMap (fun i => prog.get? i)

/-- Modelled from the spec: gather the objects at `output_locs` into the
result tuple at the end of a run. -/
def gatherOutputs (σ : State V) (locs : List MemLocation) : List (Option V) :=
  locs.map (fun l => σ l.index)

/-- Modelled from the spec: the sequential interpreter's `run(args)` —
check the argument arity against `n_args` (`ArgArity` failure otherwise),
fire every instruction in program order, then gather `output_locs`.  The
result pairs the final slot contents with the output tuple. -/
def runSeq (M : ObjectModel V) (g : ExecutionGraph D V)
    (output_locs : List MemLocation) (args : List V) (σ : State V) :
    Option (State V × List (Option V)) :=
  if args.length = g.n_args_ then
    match seqRun M args σ g.instrs_ with
    | none => none
    | some σ1 => some (σ1, gatherOutputs σ1 output_locs)
  else none

/-- Modelled from the spec: a parallel `run(args)` whose workers complete
the instructions in order `ord`; same arity check and output gathering as
the sequential interpreter. -/
def runWithOrder (M : ObjectModel V) (g : ExecutionGraph D V)
    (output_locs : List MemLocation) (ord : List Nat) (args : List V) (σ : State V) :
    Option (State V × List (Option V)) :=
  if args.length = g.n_args_ then
    match seqRun M args σ (parOrder g.instrs_ ord) with
    | none => none
    | some σ1 => some (σ1, gatherOutputs σ1 output_locs)
  else none

end cgt

namespace cgt

theorem setLoc_ne (σ : State V) (l : Nat) (v : V) (k : Nat) (h : k ≠ l) :
    setLoc σ l v k = σ k := by
  simp [setLoc, h]

theorem setLoc_comm (σ : State V) (l1 l2 : Nat) (v1 v2 : V) (h : l1 ≠ l2) :
    setLoc (setLoc σ l1 v1) l2 v2 = setLoc (setLoc σ l2 v2) l1 v1 := by
  funext k
  by_cases h1 : k = l1 <;> by_cases h2 : k = l2
  · exact absurd (h1.symm.trans h2) h
  · simp [setLoc, h1, h2, h, Ne.symm h]
  · simp [setLoc, h1, h2, h, Ne.symm h]
  · simp [setLoc, h1, h2]

theorem readVals_setLoc (σ : State V) (l : Nat) (v : V) (locs : List MemLocation)
    (h : l ∉ locs.map MemLocation.index) :
    readVals (setLoc σ l v) locs = readVals σ locs := by
  induction locs with
  | nil => rfl
  | cons x xs ih =>
    rw [List.map_cons, List.mem_cons, not_or] at h
    simp only [readVals]
    rw [setLoc_ne σ l v x.index (Ne.symm h.1), ih h.2]

theorem fireVal_setLoc (M : ObjectModel V) (args : List V) (σ : State V)
    (l : Nat) (v : V) (a : Instr D V)
    (hw : l ≠ a.get_writeloc.index) (hr : l ∉ readIdxs a) :
    fireVal M args (setLoc σ l v) a = fireVal M args σ a := by
  cases a with
  | loadArgument r h ind w => rfl
  | alloc r h dt rs w =>
    simp only [readIdxs, Instr.get_readlocs] at hr
    simp only [fireVal]
    rw [readVals_setLoc σ l v rs hr]
  | buildTup r h rs w =>
    simp only [readIdxs, Instr.get_readlocs] at hr
    simp only [fireVal]
    rw [readVals_setLoc σ l v rs hr]
  | returnByRef r h rs w c q =>
    simp only [readIdxs, Instr.get_readlocs] at hr
    simp only [Instr.get_writeloc] at hw
    simp only [fireVal]
    rw [readVals_setLoc σ l v rs hr, setLoc_ne σ l v w.index (Ne.symm hw)]
  | returnByVal r h rs w c q =>
    simp only [readIdxs, Instr.get_readlocs] at hr
    simp only [fireVal]
    rw [readVals_setLoc σ l v rs hr]

theorem fire_comm (M : ObjectModel V) (args : List V) (a b : Instr D V)
    (h : ¬ Conflict a b) (σ : State V) :
    (fire M args σ a).bind (fun σ1 => fire M args σ1 b) =
    (fire M args σ b).bind (fun σ1 => fire M args σ1 a) := by
  have haw : a.get_writeloc.index ∉ readIdxs b := fun hh => h (Or.inl hh)
  have hww : b.get_writeloc.index ≠ a.get_writeloc.index :=
    fun hh => h (Or.inr (Or.inl hh))
  have hbw : b.get_writeloc.index ∉ readIdxs a := fun hh => h (Or.inr (Or.inr hh))
  rcases ha : fireVal M args σ a with _ | va <;> rcases hb : fireVal M args σ b with _ | vb
  · simp [fire, ha, hb]
  · have hstill : fireVal M args (setLoc σ b.get_writeloc.index vb) a = none := by
      rw [fireVal_setLoc M args σ _ _ a hww hbw, ha]
    simp [fire, ha, hb, hstill]
  · have hstill : fireVal M args (setLoc σ a.get_writeloc.index va) b = none := by
      rw [fireVal_setLoc M args σ _ _ b (Ne.symm hww) haw, hb]
    simp [fire, ha, hb, hstill]
  · have h1 : fireVal M args (setLoc σ a.get_writeloc.index va) b = some vb := by
      rw [fireVal_setLoc M args σ _ _ b (Ne.symm hww) haw, hb]
    have h2 : fireVal M args (setLoc σ b.get_writeloc.index vb) a = some va := by
      rw [fireVal_setLoc M args σ _ _ a hww hbw, ha]
    simp [fire, ha, hb, h1, h2]
    exact setLoc_comm σ _ _ _ _ (Ne.symm hww)

theorem seqRun_cons (M : ObjectModel V) (args : List V) (σ : State V)
    (a : Instr D V) (l : List (Instr D V)) :
    seqRun M args σ (a :: l) =
      (fire M args σ a).bind (fun σ1 => seqRun M args σ1 l) := by
  cases h : fire M args σ a <;> simp [seqRun, h]

theorem optionBind_assoc {α β γ : Type} (x : Option α) (f : α → Option β)
    (g : β → Option γ) :
    (x.bind f).bind g = x.bind (fun y => (f y).bind g) := by
  cases x <;> rfl

theorem seqRun_swap (M : ObjectModel V) (args : List V) (a b : Instr D V)
    (h : ¬ Conflict a b) (σ : State V) (l : List (Instr D V)) :
    seqRun M args σ (a :: b :: l) = seqRun M args σ (b :: a :: l) := by
  have hc := fire_comm M args a b h σ
  calc seqRun M args σ (a :: b :: l)
      = ((fire M args σ a).bind fun σ1 => fire M args σ1 b).bind
          (fun σ2 => seqRun M args σ2 l) := by
        simp only [seqRun_cons, optionBind_assoc]
    _ = ((fire M args σ b).bind fun σ1 => fire M args σ1 a).bind
          (fun σ2 => seqRun M args σ2 l) := by rw [hc]
    _ = seqRun M args σ (b :: a :: l) := by
        simp only [seqRun_cons, optionBind_assoc]

theorem seqRun_bubble (M : ObjectModel V) (args : List V) (p : Instr D V) :
    ∀ (before after : List (Instr D V)) (σ : State V),
    (∀ q ∈ before, ¬ Conflict q p) →
    seqRun M args σ (before ++ p :: after) = seqRun M args σ (p :: (before ++ after)) := by
  intro before
  induction before with
  | nil => intro after σ _; rfl
  | cons q bs ih =>
    intro after σ h
    have hq : ¬ Conflict q p := h q (List.mem_cons_self q bs)
    have hrest : ∀ x ∈ bs, ¬ Conflict x p := fun x hx => h x (List.mem_cons_of_mem q hx)
    calc seqRun M args σ ((q :: bs) ++ p :: after)
        = (fire M args σ q).bind (fun σ1 => seqRun M args σ1 (bs ++ p :: after)) :=
          seqRun_cons M args σ q _
      _ = (fire M args σ q).bind (fun σ1 => seqRun M args σ1 (p :: (bs ++ after))) := by
          rcases fire M args σ q with _ | σ1
          · rfl
          · simp only [Option.bind]
            exact ih after σ1 hrest
      _ = seqRun M args σ (q :: p :: (bs ++ after)) := (seqRun_cons M args σ q _).symm
      _ = seqRun M args σ (p :: q :: (bs ++ after)) := seqRun_swap M args q p hq σ _
      _ = seqRun M args σ (p :: ((q :: bs) ++ after)) := rfl

end cgt

namespace cgt

/-- A list of (program position, instruction) pairs listed in program
order. -/
abbrev IdxSorted (l : List (Nat × Instr D V)) : Prop :=
  l.Pairwise (fun p q => p.1 < q.1)

/-- A list of (program position, instruction) pairs that respects the
dependency DAG: whenever a pair precedes another in the list, either
program order agrees or the two instructions do not conflict. -/
abbrev Compat (l : List (Nat × Instr D V)) : Prop :=
  l.Pairwise (fun p q => p.1 < q.1 ∨ ¬ Conflict p.2 q.2)

theorem seqRun_perm_of_compat (M : ObjectModel V) (args : List V) :
    ∀ (l0 l : List (Nat × Instr D V)) (σ : State V),
    l.Perm l0 → IdxSorted l0 → Compat l →
    seqRun M args σ (l.map Prod.snd) = seqRun M args σ (l0.map Prod.snd) := by
  intro l0
  induction l0 with
  | nil =>
    intro l σ hp _ _
    rw [List.perm_nil.mp hp]
  | cons p rest ih =>
    intro l σ hp hs hc
    have hpmem : p ∈ l := hp.mem_iff.mpr (List.mem_cons_self p rest)
    obtain ⟨before, after, rfl⟩ := List.append_of_mem hpmem
    have hsl := List.pairwise_cons.mp hs
    have hcparts := List.pairwise_append.mp hc
    have hnc : ∀ q ∈ before, ¬ Conflict q.2 p.2 := by
      intro q hq
      rcases hcparts.2.2 q hq p (List.mem_cons_self p after) with hlt | hok
      · exfalso
        have hqmem : q ∈ p :: rest := hp.mem_iff.mp (List.mem_append_left _ hq)
        rcases List.mem_cons.mp hqmem with he | hqrest
        · rw [he] at hlt
          exact lt_irrefl _ hlt
        · exact absurd (hsl.1 q hqrest) (by omega)
      · exact hok
    have hncm : ∀ x ∈ before.map Prod.snd, ¬ Conflict x p.2 := by
      intro x hx
      obtain ⟨q, hq, rfl⟩ := List.mem_map.mp hx
      exact hnc q hq
    have hperm2 : (before ++ after).Perm rest :=
      ((List.perm_middle).symm.trans hp).cons_inv
    have hc2 : Compat (before ++ after) :=
      List.Pairwise.sublist ((List.sublist_cons_self p after).append_left before) hc
    calc seqRun M args σ ((before ++ p :: after).map Prod.snd)
        = seqRun M args σ (before.map Prod.snd ++ p.2 :: after.map Prod.snd) := by
          rw [List.map_append, List.map_cons]
      _ = seqRun M args σ (p.2 :: (before.map Prod.snd ++ after.map Prod.snd)) :=
          seqRun_bubble M args p.2 _ _ σ hncm
      _ = seqRun M args σ (p.2 :: (before ++ after).map Prod.snd) := by
          rw [List.map_append]
      _ = seqRun M args σ ((p :: rest).map Prod.snd) := by
          rw [List.map_cons, seqRun_cons, seqRun_cons]
          rcases fire M args σ p.2 with _ | σ1
          · rfl
          · simp only [Option.some_bind]
            exact ih (before ++ after) σ1 hperm2 hsl.2 hc2

/-- Each scheduled position paired with the instruction at it. -/
def epermute (prog : List (Instr D V)) (ord : List Nat) : List (Nat × Instr D V) :=
  ord.filterMap (fun i => (prog.get? i).map (fun a => (i, a)))

theorem map_snd_epermute (prog : List (Instr D V)) (ord : List Nat) :
    (epermute prog ord).map Prod.snd = parOrder prog ord := by
  unfold epermute parOrder
  induction ord with
  | nil => rfl
  | cons i rest ih =>
    simp only [List.get?_eq_getElem?] at ih
    cases h : prog[i]? <;> simp [List.filterMap_cons, h, ih]

theorem parOrder_range : ∀ (prog : List (Instr D V)),
    parOrder prog (List.range prog.length) = prog := by
  intro prog
  induction prog with
  | nil => rfl
  | cons a t ih =>
    have hcomp : ((fun i => (a :: t).get? i) ∘ Nat.succ) = (fun i => t.get? i) := by
      funext i
      rfl
    show List.filterMap (fun i => (a :: t).get? i) (List.range (t.length + 1)) = a :: t
    rw [List.range_succ_eq_map, List.filterMap_cons]
    show a :: List.filterMap (fun i => (a :: t).get? i) (List.map Nat.succ (List.range t.length)) = a :: t
    rw [List.filterMap_map, hcomp]
    exact congrArg (List.cons a) ih

theorem pairwise_filterMap_of {α β : Type} (f : α → Option β) {R : α → α → Prop}
    {S : β → β → Prop}
    (hRS : ∀ a b x y, R a b → f a = some x → f b = some y → S x y) :
    ∀ (l : List α), l.Pairwise R → (l.filterMap f).Pairwise S := by
  intro l hl
  induction hl with
  | nil => simp
  | @cons a l2 ha hpl ih =>
    rw [List.filterMap_cons]
    cases hfa : f a with
    | none => exact ih
    | some x =>
      refine List.Pairwise.cons ?_ ih
      intro y hy
      obtain ⟨b, hb, hfb⟩ := List.mem_filterMap.mp hy
      exact hRS a b x y (ha b hb) hfa hfb

theorem idxSorted_epermute_range (prog : List (Instr D V)) :
    IdxSorted (epermute prog (List.range prog.length)) := by
  refine pairwise_filterMap_of _ ?_ _ (List.pairwise_lt_range prog.length)
  intro i j x y hij hx hy
  obtain ⟨a, ha, rfl⟩ := Option.map_eq_some'.mp hx
  obtain ⟨b, hb, rfl⟩ := Option.map_eq_some'.mp hy
  exact hij

theorem compat_epermute (prog : List (Instr D V)) (ord : List Nat)
    (hperm : ord.Perm (List.range prog.length)) (hext : linearExtOK prog ord) :
    Compat (epermute prog ord) := by
  have hnd : ord.Nodup := (hperm.nodup_iff).mpr (List.nodup_range prog.length)
  have hS : ord.Pairwise (fun i j => ∀ a b, prog.get? i = some a →
      prog.get? j = some b → (i < j ∨ ¬ Conflict a b)) := by
    rw [List.pairwise_iff_get]
    intro ki kj hk a b hga hgb
    by_cases hij : ord.get ki < ord.get kj
    · exact Or.inl hij
    · right
      intro hconf
      have hne : ord.get ki ≠ ord.get kj :=
        fun he => absurd (hnd.get_inj_iff.mp he) (ne_of_lt hk)
      have hji : ord.get kj < ord.get ki := by omega
      have hjlen : ord.get ki < prog.length := by
        obtain ⟨hlt, _⟩ := List.get?_eq_some.mp hga
        exact hlt
      have hgetDa : prog.getD (ord.get ki) default = a := by
        rw [List.getD_eq_getElem?_getD, ← List.get?_eq_getElem?, hga]
        rfl
      have hgetDb : prog.getD (ord.get kj) default = b := by
        rw [List.getD_eq_getElem?_getD, ← List.get?_eq_getElem?, hgb]
        rfl
      have hconfba : Conflict (prog.getD (ord.get kj) default)
          (prog.getD (ord.get ki) default) := by
        rw [hgetDa, hgetDb]
        exact Conflict_symm a b hconf
      have hlt2 := hext (ord.get ki) hjlen (ord.get kj) hji hconfba
      rw [List.get_indexOf hnd, List.get_indexOf hnd] at hlt2
      have hkn : (ki : Nat) < (kj : Nat) := hk
      omega
  refine pairwise_filterMap_of _ ?_ ord hS
  intro i j x y hij hx hy
  obtain ⟨a, ha, rfl⟩ := Option.map_eq_some'.mp hx
  obtain ⟨b, hb, rfl⟩ := Option.map_eq_some'.mp hy
  exact hij a b ha hb

end cgt

namespace cgt

/-- C1: for every execution graph, argument tuple, initial slot state and
output-slot list, a parallel run whose completion order is any valid
topological order of the dependency DAG (which is what the scheduler of
the interpreter returned by `create_interpreter` with `num_threads ≥ 1`
produces; `num_threads = 1` is the program order itself) returns exactly
the sequential interpreter's result: the same output tuple and the same
final slot contents, so the outcome is uniquely determined. -/
theorem parallel_run_eq_sequential_run (M : ObjectModel V) (g : ExecutionGraph D V)
    (output_locs : List MemLocation) (ord : List Nat) (args : List V) (σ : State V)
    (hperm : ord.Perm (List.range g.instrs_.length))
    (hext : linearExtOK g.instrs_ ord) :
    runWithOrder M g output_locs ord args σ = runSeq M g output_locs args σ := by
  have hmain : seqRun M args σ (parOrder g.instrs_ ord) = seqRun M args σ g.instrs_ := by
    calc seqRun M args σ (parOrder g.instrs_ ord)
        = seqRun M args σ ((epermute g.instrs_ ord).map Prod.snd) := by
          rw [map_snd_epermute]
      _ = seqRun M args σ
            ((epermute g.instrs_ (List.range g.instrs_.length)).map Prod.snd) :=
          seqRun_perm_of_compat M args _ _ σ (hperm.filterMap _)
            (idxSorted_epermute_range g.instrs_) (compat_epermute _ _ hperm hext)
      _ = seqRun M args σ (parOrder g.instrs_ (List.range g.instrs_.length)) := by
          rw [map_snd_epermute]
      _ = seqRun M args σ g.instrs_ := by rw [parOrder_range]
  unfold runWithOrder runSeq
  rw [hmain]

/-- A concrete object model over natural-number "objects" used to
exercise the interpreter equivalence at a closed input. -/
def modelW : ObjectModel Nat :=
  ObjectModel.mk (fun v => some v) (fun dtype shape _ => dtype + shape.sum)
    (fun vs => vs.sum)

/-- A concrete three-instruction graph: load two arguments, then tuple
them; the two loads are independent, so `[1, 0, 2]` is a valid parallel
completion order. -/
def graphW : ExecutionGraph Unit Nat :=
  ExecutionGraph.mk
    [Instr.loadArgument "LoadArgument 0" 11 0 (MemLocation.mk 0 cgtDevtype.cgtCPU),
     Instr.loadArgument "LoadArgument 1" 12 1 (MemLocation.mk 1 cgtDevtype.cgtCPU),
     Instr.buildTup "BuildTup" 13
       [MemLocation.mk 0 cgtDevtype.cgtCPU, MemLocation.mk 1 cgtDevtype.cgtCPU]
       (MemLocation.mk 2 cgtDevtype.cgtCPU)]
    2 3

/-- C1 witness: the equivalence applied to the concrete graph `graphW`,
schedule `[1, 0, 2]` and arguments `[10, 20]`. -/
theorem parallel_run_eq_sequential_run_witness :
    runWithOrder modelW graphW [MemLocation.mk 2 cgtDevtype.cgtCPU] [1, 0, 2]
      [10, 20] (fun _ => none) =
    runSeq modelW graphW [MemLocation.mk 2 cgtDevtype.cgtCPU] [10, 20]
      (fun _ => none) :=
  parallel_run_eq_sequential_run modelW graphW _ _ _ _ (by decide) (by decide)

end cgt
